import Mathlib

/-!
# Verification of the SCALE codec (qdrvm/scale-codec-cpp)

A shallow embedding of the codec engine of the scale-codec-cpp repository,
together with theorems settling the behavioural claims about it.

Conventions of the embedding:
* Bytes are `Nat`s below 256; byte buffers are `List Nat`.
* An encoder backend receives a sequence of primitive operations
  (`put` one byte / `write` a span), mirroring `EncoderBackend::put/write`.
  The accumulating backend (`backend::ToBytes`) folds the operations into a
  byte list; the counting backend (`backend::ForCount`) folds them into a
  count.  Generic `encode(value, encoder)` functions are embedded as
  functions producing the operation trace they emit, paired with the error
  they raise (if any); operations listed are those emitted *before* the
  error was raised, matching the `raise`-throws-immediately semantics.
* A decoder (`backend::FromBytes`) is a forward cursor over a byte list;
  decode functions consume a prefix and return the value plus the remaining
  bytes, or a `DecodeError`.
* Machine integers are modelled as `Nat` with explicit `% 2^w` where
  overflow matters.
-/

set_option maxRecDepth 8000

namespace Scale

/-! ## Error taxonomies (scale_error.hpp) -/

/-- `scale::EncodeError` from `scale_error.hpp`. -/
inductive EncodeError where
  | NegativeInteger
  | DerefNullpointer
  | ValueTooBigForCompactRepresentation
deriving DecidableEq, Repr

/-- `scale::DecodeError` from `scale_error.hpp`. -/
inductive DecodeError where
  | NotEnoughData
  | UnexpectedValue
  | TooManyItems
  | WrongTypeIndex
  | InvalidEnumValue
  | UnusedBitsAreSet
  | RedundantCompactEncoding
  | DecodedValueOverflowsTarget
deriving DecidableEq, Repr

/-! ## Encoder backends (encoder_backend.hpp, backend/to_bytes.hpp,
backend/for_count.hpp)

`EncoderBackend` exposes `put(byte)` and `write(span)`.  An encode run is
embedded as the list of these operations it performs, in order. -/

/-- One primitive sink operation of `EncoderBackend`: `put` a single byte or
`write` a span of bytes. -/
inductive EncOp where
  | put (b : Nat)
  | write (bs : List Nat)
deriving DecidableEq, Repr

/-- The accumulating backend `backend::ToBytes`: `put` appends one byte with
`push_back`, `write` appends the whole span with `insert`. -/
def toBytesRun (ops : List EncOp) : List Nat :=
  match ops with
  | [] => []
  | .put b :: rest => b :: toBytesRun rest
  | .write bs :: rest => bs ++ toBytesRun rest

/-- The counting backend `backend::ForCount`: `put` increments the count by
one, `write` adds the span's size. -/
def forCountRun (ops : List EncOp) : Nat :=
  match ops with
  | [] => 0
  | .put _ :: rest => 1 + forCountRun rest
  | .write bs :: rest => bs.length + forCountRun rest

/-- Result of an encode run: the operation trace emitted so far, and the
error (if one was raised, terminating the run). -/
abbrev EncResult := List EncOp × Option EncodeError

/-- Bytes an encode run leaves in a fresh `ToBytes` buffer (also when the run
ended in an error: the operations before the `raise` have been performed). -/
def encBytes (r : EncResult) : List Nat := toBytesRun r.1

/-- `scale::impl::memory::encode`: run the encoder over a fresh byte vector;
an exception is turned into the error, a completed run yields the buffer. -/
def memEncode (r : EncResult) : Except EncodeError (List Nat) :=
  match r.2 with
  | some e => .error e
  | none => .ok (toBytesRun r.1)

/-- `scale::impl::memory::encoded_size`: run the same encode over the
counting backend `ForCount` and return the count. -/
def memEncodedSize (r : EncResult) : Except EncodeError Nat :=
  match r.2 with
  | some e => .error e
  | none => .ok (forCountRun r.1)

/-! ## Decoder source (decoder.hpp, backend/from_bytes.hpp) -/

/-- `Decoder::take`: consume one byte; raises `NotEnoughData` on an empty
source. -/
def takeByte (bs : List Nat) : Except DecodeError (Nat × List Nat) :=
  match bs with
  | [] => .error .NotEnoughData
  | b :: rest => .ok (b, rest)

/-- `Decoder::read` of `n` bytes (checks `has(n)` first, raising
`NotEnoughData`), returning the consumed bytes and the remaining source. -/
def takeBytes (n : Nat) (bs : List Nat) :
    Except DecodeError (List Nat × List Nat) :=
  match n with
  | 0 => .ok ([], bs)
  | n + 1 =>
    match bs with
    | [] => .error .NotEnoughData
    | b :: rest =>
      match takeBytes n rest with
      | .ok (taken, remaining) => .ok (b :: taken, remaining)
      | .error e => .error e

/-! ## Little-endian byte strings -/

/-- The `k` little-endian base-256 digits of `v` (low byte first). -/
def toLE (v : Nat) : Nat → List Nat
  | 0 => []
  | k + 1 => v % 256 :: toLE (v / 256) k

/-- Value of a little-endian byte string (inverse of `toLE`). -/
def fromLE (bs : List Nat) : Nat :=
  match bs with
  | [] => 0
  | b :: rest => b + 256 * fromLE rest

/-- Iteration worker for `byteLen`; the first argument is structural fuel
(`n / 256 < n` for positive `n`, so fuel `n` always suffices). -/
def byteLenAux : Nat → Nat → Nat
  | 0, _ => 0
  | fuel + 1, n => if n = 0 then 0 else byteLenAux fuel (n / 256) + 1

/-- Minimal number of bytes needed to represent `n` (0 for `n = 0`). -/
def byteLen (n : Nat) : Nat := byteLenAux n n

/-! ## Compact integer codec

The tier implementation (`detail/compact_integer_classic.hpp`:
`encodeCompactInteger`, `decodeCompactInteger`,
`lengthOfEncodedCompactInteger`) is not among the repository sources at hand
— only its callers (`scale_decoder_stream.hpp`, `encode_append`) and its
tests (`test/scale_compact_test.cpp`).  The functions below are therefore
modelled from the spec's §4.3 tier table. -/

/-- Modelled from the spec: `encodeCompactInteger` of
`detail/compact_integer_classic.hpp` (not among the sources), §4.3: choose
the smallest of the 4 tiers containing the value, fail with
`ValueTooBigForCompactRepresentation` above `2^536 - 1`; tier 3 is a header
byte `((N-4) << 2) | 0b11` followed by the `N` little-endian magnitude
bytes, `N` minimal. -/
def encodeCompactInteger (n : Nat) : EncResult :=
  if n ≤ 63 then
    ([.put (n * 4)], none)
  else if n ≤ 16383 then
    ((toLE (n * 4 + 1) 2).map .put, none)
  else if n ≤ 2 ^ 30 - 1 then
    ((toLE (n * 4 + 2) 4).map .put, none)
  else if n ≤ 2 ^ 536 - 1 then
    let N := byteLen n
    (.put ((N - 4) * 4 + 3) :: (toLE n N).map .put, none)
  else
    ([], some .ValueTooBigForCompactRepresentation)

/-- Modelled from the spec: compact encoding of a possibly negative integer
(`CompactInteger` is a signed `cpp_int`), §4.3: "For negative integers,
encoding fails with `NegativeInteger` ... before any bytes are written". -/
def encodeCompactIntegerSigned (z : Int) : EncResult :=
  if z < 0 then ([], some .NegativeInteger)
  else encodeCompactInteger z.toNat

/-- Modelled from the spec: `lengthOfEncodedCompactInteger` of
`detail/compact_integer_classic.hpp` (not among the sources): the byte
length of the canonical compact encoding. -/
def lengthOfEncodedCompactInteger (n : Nat) : Nat :=
  if n ≤ 63 then 1
  else if n ≤ 16383 then 2
  else if n ≤ 2 ^ 30 - 1 then 4
  else 1 + byteLen n

/-- Modelled from the spec: `decodeCompactInteger` of
`detail/compact_integer_classic.hpp` (not among the sources), §4.3: read the
first byte, its low 2 bits select the tier, reconstruct the magnitude, then
reject non-canonical encodings (a value representable in a smaller tier, or
with fewer tier-3 bytes) with `RedundantCompactEncoding`. -/
def decodeCompactInteger (bs : List Nat) :
    Except DecodeError (Nat × List Nat) :=
  match takeByte bs with
  | .error e => .error e
  | .ok (b, r) =>
    if b % 4 = 0 then
      .ok (b / 4, r)
    else if b % 4 = 1 then
      match takeBytes 1 r with
      | .error e => .error e
      | .ok (data, r') =>
        let v := (b + 256 * fromLE data) / 4
        if v ≤ 63 then .error .RedundantCompactEncoding
        else .ok (v, r')
    else if b % 4 = 2 then
      match takeBytes 3 r with
      | .error e => .error e
      | .ok (data, r') =>
        let v := (b + 256 * fromLE data) / 4
        if v ≤ 16383 then .error .RedundantCompactEncoding
        else .ok (v, r')
    else
      let N := b / 4 + 4
      match takeBytes N r with
      | .error e => .error e
      | .ok (data, r') =>
        let v := fromLE data
        if v < 2 ^ 30 ∨ byteLen v < N then .error .RedundantCompactEncoding
        else .ok (v, r')

/-- `ScaleDecoderStream::decodeCompact<T>` (scale_decoder_stream.hpp):
decode the compact integer, then fail with `DecodedValueOverflowsTarget`
when its most significant bit position reaches the target's width
(`msb(integer) >= std::numeric_limits<T>::digits`). -/
def decodeCompactTo (digits : Nat) (bs : List Nat) :
    Except DecodeError (Nat × List Nat) :=
  match decodeCompactInteger bs with
  | .error e => .error e
  | .ok (v, r) =>
    if v ≥ 2 ^ digits then .error .DecodedValueOverflowsTarget
    else .ok (v, r)

/-- Compact decoding into a `uint32_t` target (`Compact<uint32_t>`). -/
def decodeCompactU32 (bs : List Nat) : Except DecodeError (Nat × List Nat) :=
  decodeCompactTo 32 bs

/-- Compact decoding into a `size_t` target (64-bit). -/
def decodeCompactSizeT (bs : List Nat) : Except DecodeError (Nat × List Nat) :=
  decodeCompactTo 64 bs

/-! ## Non-minimal compact encodings (for the canonicality claim)

Byte strings that carry a magnitude in a *chosen* tier, whether or not that
tier is the minimal one; the wire formats are those of §4.3. -/

/-- The byte string carrying magnitude `m` in tier `t ∈ {0, 1, 2}` (1, 2 or
4 bytes), when `m` fits that tier's value space at all. -/
def compactTierBytes (t m : Nat) : Option (List Nat) :=
  match t with
  | 0 => if m ≤ 63 then some [m * 4] else none
  | 1 => if m ≤ 16383 then some (toLE (m * 4 + 1) 2) else none
  | 2 => if m ≤ 2 ^ 30 - 1 then some (toLE (m * 4 + 2) 4) else none
  | _ => none

/-- The tier-3 byte string carrying magnitude `m` in `N` magnitude bytes
(header `((N-4) << 2) | 0b11`), when representable. -/
def compactTier3Bytes (N m : Nat) : Option (List Nat) :=
  if 4 ≤ N ∧ N ≤ 67 ∧ m < 256 ^ N then
    some (((N - 4) * 4 + 3) :: toLE m N)
  else none

/-- The minimal tier able to represent magnitude `m` (§4.3 table). -/
def minCompactTier (m : Nat) : Nat :=
  if m ≤ 63 then 0
  else if m ≤ 16383 then 1
  else if m ≤ 2 ^ 30 - 1 then 2
  else 3

/-! ## SmallBitVector (bit_vector.hpp)

`SmallBitVector<T>` with the default `T = uintmax_t` (64 bits): a single
word `bits_` whose upper `size_bits = 6` bits store the length and whose
lower `data_bits = 58` bits store the bit data.  The word is modelled as a
`Nat` below `2^64`; `x >> 58` is `x / 2^58` and `x & data_mask` is
`x % 2^58`. -/

/-- `SmallBitVector::data_bits` for `T = uintmax_t`: `64 - 6 = 58`
(`size_bits = 6` because `38 ≤ 64 < 71`). -/
def sbvDataBits : Nat := 58

/-- `SmallBitVector::size()`: `bits_ >> data_bits`. -/
def sbvSize (bits : Nat) : Nat := bits / 2 ^ 58

/-- `SmallBitVector::data()`: `bits_ & data_mask` (`data_mask = 2^58 - 1`). -/
def sbvData (bits : Nat) : Nat := bits % 2 ^ 58

/-- `SmallBitVector::operator==`: compares `size()` and `data()`. -/
def sbvEq (a b : Nat) : Bool :=
  sbvSize a == sbvSize b && sbvData a == sbvData b

/-- The loop `for (i = 0; i < size; i += CHAR_BIT) put(uint8_t(data >> i))`,
one `put` per byte chunk, low chunk first; the argument is the number of
iterations `ceil(size / 8)`. -/
def putChunksLE (data : Nat) : Nat → List EncOp
  | 0 => []
  | k + 1 => .put (data % 256) :: putChunksLE (data / 256) k

/-- `encode(const SmallBitVector&, Encoder&)` (bit_vector.hpp): compact
size, then the data bits in `ceil(size/8)` LSB-first bytes. -/
def encodeSmallBitVector (bits : Nat) : EncResult :=
  let size := sbvSize bits
  match encodeCompactInteger size with
  | (ops, some e) => (ops, some e)
  | (ops, none) => (ops ++ putChunksLE (sbvData bits) ((size + 7) / 8), none)

/-- `decode(SmallBitVector&, Decoder&)` (bit_vector.hpp): decode the compact
size, check `has(byte_count)`, OR the `byte_count` data bytes into a fresh
word `bits` (low byte first), and return `SmallBitVector(bits)` — i.e. the
word is rebuilt from the data bytes alone; the size field is *not*
restored. -/
def decodeSmallBitVector (bs : List Nat) :
    Except DecodeError (Nat × List Nat) :=
  match decodeCompactSizeT bs with
  | .error e => .error e
  | .ok (size, r) =>
    let byteCount := (size + 7) / 8
    match takeBytes byteCount r with
    | .error e => .error e
    | .ok (data, r') => .ok (fromLE data % 2 ^ 64, r')

/-! ## BitVector (bit_vector.hpp)

The general bit vector's decoded state is its bit length plus its
`ceil(size/8)` data bytes; which storage mode (inline array or heap vector)
holds them is memory layout, irrelevant to the decoded value. -/

/-- `decode(BitVector&, Decoder&)` (bit_vector.hpp): decode the compact bit
size, check `has(byte_size)`, read the data bytes, then reject a set unused
high bit in the final byte (`data[byte_size-1] & (0xFF << last_bits)`) with
`UnusedBitsAreSet`. -/
def decodeBitVector (bs : List Nat) :
    Except DecodeError ((Nat × List Nat) × List Nat) :=
  match decodeCompactSizeT bs with
  | .error e => .error e
  | .ok (bitSize, r) =>
    let byteSize := (bitSize + 7) / 8
    match takeBytes byteSize r with
    | .error e => .error e
    | .ok (data, r') =>
      let lastBits := bitSize % 8
      if lastBits > 0 ∧ 0 < byteSize
          ∧ data.getLastD 0 &&& (255 <<< lastBits) ≠ 0 then
        .error .UnusedBitsAreSet
      else
        .ok ((bitSize, data), r')

/-! ## Variant decoding (scale_decoder_stream.hpp)

`operator>>(std::variant<Ts...>&)` with the alternatives' payload decoders
abstracted as a list of decoding functions into a common payload type; the
decoded variant value is the pair (discriminant index, payload). -/

/-- `ScaleDecoderStream::tryDecodeAsOneOfVariant<I>`: recurse over the
alternative list until the runtime index hits the current position, then
decode the payload as that alternative's type. -/
def tryDecodeAsOneOfVariant {α : Type} :
    List (List Nat → Except DecodeError (α × List Nat)) → Nat → List Nat →
      Except DecodeError (α × List Nat)
  | [], _, _ => .error .WrongTypeIndex
  | d :: _, 0, bs => d bs
  | _ :: ds, i + 1, bs => tryDecodeAsOneOfVariant ds i bs

/-- `ScaleDecoderStream::operator>>(std::variant<Ts...>&)`: read the
discriminant byte, fail with `WrongTypeIndex` unless it is below the number
of declared alternatives, then decode the payload as the indicated
alternative's type. -/
def decodeVariant {α : Type}
    (alts : List (List Nat → Except DecodeError (α × List Nat)))
    (bs : List Nat) : Except DecodeError ((Nat × α) × List Nat) :=
  match takeByte bs with
  | .error e => .error e
  | .ok (typeIndex, r) =>
    if typeIndex ≥ alts.length then .error .WrongTypeIndex
    else
      match tryDecodeAsOneOfVariant alts typeIndex r with
      | .error e => .error e
      | .ok (v, r') => .ok ((typeIndex, v), r')

/-! ## Dynamic collection decoding (detail/collections.hpp)

The element type is abstracted as a payload decoder; the container's
`max_size()` is a parameter, and the possibility that `resize`/`reserve`
throws `std::bad_alloc` is modelled by the predicate `allocOk` on the
requested count. -/

/-- The per-element decode loop shared by the collection decoders. -/
def decodeItems {α : Type}
    (dec : List Nat → Except DecodeError (α × List Nat)) :
    Nat → List Nat → Except DecodeError (List α × List Nat)
  | 0, bs => .ok ([], bs)
  | k + 1, bs =>
    match dec bs with
    | .error e => .error e
    | .ok (x, r) =>
      match decodeItems dec k r with
      | .error e => .error e
      | .ok (xs, r') => .ok (x :: xs, r')

/-- `decode(ResizeableCollection auto&, Decoder&)` (collections.hpp):
decode the compact item count; fail with `TooManyItems` if it exceeds
`max_size()`; `resize(item_count)` mapping `bad_alloc` to `TooManyItems`;
then decode each element in place. -/
def decodeResizeableCollection {α : Type} (maxSize : Nat)
    (allocOk : Nat → Bool)
    (dec : List Nat → Except DecodeError (α × List Nat)) (bs : List Nat) :
    Except DecodeError (List α × List Nat) :=
  match decodeCompactSizeT bs with
  | .error e => .error e
  | .ok (itemCount, r) =>
    if itemCount > maxSize then .error .TooManyItems
    else if allocOk itemCount = false then .error .TooManyItems
    else decodeItems dec itemCount r

/-- `decode(ExtensibleBackCollection auto&, Decoder&)` (collections.hpp):
decode the compact item count; fail with `TooManyItems` if it exceeds
`max_size()`; `clear()` then `reserve(item_count)` mapping `bad_alloc` to
`TooManyItems`; then repeatedly `emplace_back()` and decode into the new
element. -/
def decodeExtensibleBackCollection {α : Type} (maxSize : Nat)
    (allocOk : Nat → Bool)
    (dec : List Nat → Except DecodeError (α × List Nat)) (bs : List Nat) :
    Except DecodeError (List α × List Nat) :=
  match decodeCompactSizeT bs with
  | .error e => .error e
  | .ok (itemCount, r) =>
    if itemCount > maxSize then .error .TooManyItems
    else if allocOk itemCount = false then .error .TooManyItems
    else decodeItems dec itemCount r

/-! ## OptionalBool (optional_bool.hpp) -/

/-- `OptionalBool::set`: internal byte 1 for true, 2 for false. -/
def optionalBoolSet (value : Bool) : Nat := if value then 1 else 2

/-- The internal byte `data_` of an `OptionalBool`: 0 when empty
(`reset`), otherwise `set(value)`. -/
def optionalBoolRepr : Option Bool → Nat
  | none => 0
  | some b => optionalBoolSet b

/-- `encode(const OptionalBool&, Encoder&)`: a single `put` of `data_`. -/
def encodeOptionalBool (v : Option Bool) : EncResult :=
  ([.put (optionalBoolRepr v)], none)

/-- `decode(OptionalBool&, Decoder&)`: take one byte; `0` is empty, `1` is
true, `2` is false, everything else raises `UnexpectedValue`. -/
def decodeOptionalBool (bs : List Nat) :
    Except DecodeError (Option Bool × List Nat) :=
  match takeByte bs with
  | .error e => .error e
  | .ok (b, r) =>
    if b = 0 then .ok (none, r)
    else if b = 1 then .ok (some true, r)
    else if b = 2 then .ok (some false, r)
    else .error .UnexpectedValue

/-! ## Opaque-value append splice (encode_append.hpp / encode_append.cpp) -/

/-- `encode(const EncodeOpaqueValue&, Encoder&)`: each byte of the blob is
encoded in turn (a `put` per byte), with no length prefix. -/
def encodeOpaqueValue (blob : List Nat) : List EncOp := blob.map .put

/-- Encoding of `std::vector<EncodeOpaqueValue>` (the generic dynamic
collection encode of collections.hpp): compact count, then the
concatenation of the blob encodings. -/
def encodeOpaqueVec (blobs : List (List Nat)) : EncResult :=
  match encodeCompactInteger blobs.length with
  | (ops, some e) => (ops, some e)
  | (ops, none) => (ops ++ (blobs.map encodeOpaqueValue).flatten, none)

/-- `append_or_new_vec` (src/encode_append.cpp): if the buffer is empty,
encode a fresh one-element vector; otherwise decode the `Compact<uint32_t>`
length prefix, compute the old and new prefix widths, shift the payload
right when the width grows (append-zeros + rotate right), overwrite the
prefix with the encoding of the new length, and append the new blob's raw
bytes. -/
def appendOrNewVec (selfEncoded : List Nat) (input : List Nat) :
    Except DecodeError (List Nat) :=
  if selfEncoded.isEmpty then
    .ok (encBytes (encodeOpaqueVec [input]))
  else
    match decodeCompactU32 selfEncoded with
    | .error e => .error e
    | .ok (len, _) =>
      let newLen := (len + 1) % 2 ^ 32
      let encodedLen := lengthOfEncodedCompactInteger len
      let encodedNewLen := lengthOfEncodedCompactInteger newLen
      let shifted :=
        if encodedLen ≠ encodedNewLen then
          List.replicate (encodedNewLen - encodedLen) 0 ++ selfEncoded
        else selfEncoded
      let replaced :=
        encBytes (encodeCompactInteger newLen) ++ shifted.drop encodedNewLen
      .ok (replaced ++ input)

example : encBytes (encodeCompactInteger 0) = [0x00] := by decide
example : encBytes (encodeCompactInteger 1) = [0x04] := by decide
example : encBytes (encodeCompactInteger 64) = [0x01, 0x01] := by decide
example : encBytes (encodeCompactInteger 16384) = [2, 0, 1, 0] := by decide
example : encBytes (encodeCompactInteger 1073741824) = [3, 0, 0, 0, 64] := rfl
example : decodeCompactInteger [3, 0, 0, 0, 64] = .ok (1073741824, []) := rfl
example : decodeCompactInteger [0b10000001, 0]
    = .error .RedundantCompactEncoding := rfl
example : decodeCompactInteger [0b00000010, 0b10000000, 0, 0]
    = .error .RedundantCompactEncoding := rfl
example : decodeCompactInteger [0b11, 0, 0, 0, 0b00100000]
    = .error .RedundantCompactEncoding := rfl
example : decodeCompactInteger [0b111, 0, 0, 0, 0b01000000, 0]
    = .error .RedundantCompactEncoding := rfl
example : decodeCompactInteger [255, 255, 255, 255]
    = .error .NotEnoughData := rfl

/-! ## Supporting lemmas -/

theorem forCountRun_eq_length (ops : List EncOp) :
    forCountRun ops = (toBytesRun ops).length := by
  induction ops with
  | nil => rfl
  | cons op rest ih =>
    cases op with
    | put b =>
      simp only [forCountRun, toBytesRun, List.length_cons, ih]
      omega
    | write bs =>
      simp only [forCountRun, toBytesRun, List.length_append, ih]

theorem toBytesRun_append (xs ys : List EncOp) :
    toBytesRun (xs ++ ys) = toBytesRun xs ++ toBytesRun ys := by
  induction xs with
  | nil => rfl
  | cons op rest ih =>
    cases op with
    | put b => simp [toBytesRun, ih]
    | write bs => simp [toBytesRun, ih]

theorem toBytesRun_map_put (bs : List Nat) :
    toBytesRun (bs.map .put) = bs := by
  induction bs with
  | nil => rfl
  | cons b rest ih => simp [toBytesRun, ih]

theorem takeBytes_append (xs ys : List Nat) :
    takeBytes xs.length (xs ++ ys) = .ok (xs, ys) := by
  induction xs with
  | nil => rfl
  | cons x rest ih => simp [takeBytes, ih]

theorem toLE_length (v k : Nat) : (toLE v k).length = k := by
  induction k generalizing v with
  | zero => rfl
  | succ k ih => simp [toLE, ih]

theorem fromLE_toLE (v k : Nat) (h : v < 256 ^ k) :
    fromLE (toLE v k) = v := by
  induction k generalizing v with
  | zero => simp [toLE, fromLE]; omega
  | succ k ih =>
    have hdiv : v / 256 < 256 ^ k := by
      rw [Nat.div_lt_iff_lt_mul (by omega)]
      calc v < 256 ^ (k + 1) := h
        _ = 256 ^ k * 256 := by ring
    simp only [toLE, fromLE, ih (v / 256) hdiv]
    omega

theorem byteLenAux_le_iff (fuel n k : Nat) (hn : n ≤ fuel) :
    byteLenAux fuel n ≤ k ↔ n < 256 ^ k := by
  induction fuel generalizing n k with
  | zero =>
    have : n = 0 := by omega
    subst this
    have h1 : byteLenAux 0 0 = 0 := rfl
    rw [h1]
    exact iff_of_true (Nat.zero_le k) (pow_pos (by omega) k)
  | succ fuel ih =>
    by_cases h0 : n = 0
    · subst h0
      have h1 : byteLenAux (fuel + 1) 0 = 0 := rfl
      rw [h1]
      exact iff_of_true (Nat.zero_le k) (pow_pos (by omega) k)
    · have hstep : byteLenAux (fuel + 1) n = byteLenAux fuel (n / 256) + 1 := by
        simp [byteLenAux, h0]
      rw [hstep]
      cases k with
      | zero =>
        simp only [pow_zero]
        omega
      | succ k =>
        have hfuel : n / 256 ≤ fuel := by
          have := Nat.div_lt_self (Nat.pos_of_ne_zero h0) (by omega : 1 < 256)
          omega
        rw [Nat.succ_le_succ_iff, ih (n / 256) k hfuel,
          Nat.div_lt_iff_lt_mul (by omega : 0 < 256)]
        constructor
        · intro h
          calc n < 256 ^ k * 256 := h
            _ = 256 ^ (k + 1) := by ring
        · intro h
          calc n < 256 ^ (k + 1) := h
            _ = 256 ^ k * 256 := by ring

theorem byteLen_le_iff (n k : Nat) : byteLen n ≤ k ↔ n < 256 ^ k :=
  byteLenAux_le_iff n n k (le_refl n)

theorem lt_pow_byteLen (n : Nat) : n < 256 ^ byteLen n :=
  (byteLen_le_iff n (byteLen n)).mp (le_refl _)

theorem byteLen_eq_iff (n k : Nat) (hk : 0 < k) :
    byteLen n = k ↔ 256 ^ (k - 1) ≤ n ∧ n < 256 ^ k := by
  constructor
  · intro h
    refine ⟨?_, h ▸ lt_pow_byteLen n⟩
    by_contra hlt
    push_neg at hlt
    have := (byteLen_le_iff n (k - 1)).mpr hlt
    omega
  · rintro ⟨hlo, hhi⟩
    have h1 : byteLen n ≤ k := (byteLen_le_iff n k).mpr hhi
    have h2 : ¬ byteLen n ≤ k - 1 := by
      intro hle
      have := (byteLen_le_iff n (k - 1)).mp hle
      omega
    omega

theorem takeBytes_exact (n : Nat) (xs ys : List Nat) (h : xs.length = n) :
    takeBytes n (xs ++ ys) = .ok (xs, ys) := by
  subst h
  exact takeBytes_append xs ys

/-! ### Canonical compact encodings, tier by tier -/

theorem encBytes_compact_tier0 (n : Nat) (h : n ≤ 63) :
    encBytes (encodeCompactInteger n) = [n * 4] := by
  simp [encodeCompactInteger, encBytes, toBytesRun, h]

theorem encBytes_compact_tier1 (n : Nat) (h1 : 64 ≤ n) (h2 : n ≤ 16383) :
    encBytes (encodeCompactInteger n) = toLE (n * 4 + 1) 2 := by
  rw [encodeCompactInteger, if_neg (by omega), if_pos h2]
  exact toBytesRun_map_put _

theorem encBytes_compact_tier2 (n : Nat) (h1 : 16384 ≤ n)
    (h2 : n ≤ 2 ^ 30 - 1) :
    encBytes (encodeCompactInteger n) = toLE (n * 4 + 2) 4 := by
  rw [encodeCompactInteger, if_neg (by omega), if_neg (by omega), if_pos h2]
  exact toBytesRun_map_put _

theorem encBytes_compact_tier3 (n : Nat) (h1 : 2 ^ 30 ≤ n)
    (h2 : n ≤ 2 ^ 536 - 1) :
    encBytes (encodeCompactInteger n)
      = ((byteLen n - 4) * 4 + 3) :: toLE n (byteLen n) := by
  rw [encodeCompactInteger, if_neg (by omega), if_neg (by omega),
    if_neg (by omega), if_pos h2]
  show toBytesRun (_ :: _) = _
  rw [toBytesRun]
  rw [toBytesRun_map_put]

/-- For a value in tier 3, the minimal byte count lies in `[4, 67]`. -/
theorem byteLen_tier3_bounds (n : Nat) (h1 : 2 ^ 30 ≤ n)
    (h2 : n ≤ 2 ^ 536 - 1) : 4 ≤ byteLen n ∧ byteLen n ≤ 67 := by
  constructor
  · by_contra hlt
    push_neg at hlt
    have h3 : byteLen n ≤ 3 := by omega
    have := (byteLen_le_iff n 3).mp h3
    norm_num at this
    omega
  · apply (byteLen_le_iff n 67).mpr
    have : (256 : Nat) ^ 67 = 2 ^ 536 := by norm_num [← pow_mul]
    omega

/-- The compact encoder succeeds on every value below `2^536`. -/
theorem encodeCompactInteger_no_error (n : Nat) (h : n < 2 ^ 536) :
    (encodeCompactInteger n).2 = none := by
  rw [encodeCompactInteger]
  by_cases h0 : n ≤ 63
  · rw [if_pos h0]
  rw [if_neg h0]
  by_cases h1 : n ≤ 16383
  · rw [if_pos h1]
  rw [if_neg h1]
  by_cases h2 : n ≤ 2 ^ 30 - 1
  · rw [if_pos h2]
  rw [if_neg h2, if_pos (show n ≤ 2 ^ 536 - 1 by omega)]

/-- The canonical compact encoding has exactly the length
`lengthOfEncodedCompactInteger` reports. -/
theorem encBytes_compact_length (n : Nat) (h : n < 2 ^ 536) :
    (encBytes (encodeCompactInteger n)).length
      = lengthOfEncodedCompactInteger n := by
  by_cases h0 : n ≤ 63
  · rw [encBytes_compact_tier0 n h0, lengthOfEncodedCompactInteger, if_pos h0]
    rfl
  by_cases h1 : n ≤ 16383
  · rw [encBytes_compact_tier1 n (by omega) h1, lengthOfEncodedCompactInteger,
      if_neg h0, if_pos h1, toLE_length]
  by_cases h2 : n ≤ 2 ^ 30 - 1
  · rw [encBytes_compact_tier2 n (by omega) h2, lengthOfEncodedCompactInteger,
      if_neg h0, if_neg h1, if_pos h2, toLE_length]
  rw [encBytes_compact_tier3 n (by omega) (by omega),
    lengthOfEncodedCompactInteger, if_neg h0, if_neg h1, if_neg h2,
    List.length_cons, toLE_length]
  omega

/-- Round-trip of the compact integer codec: decoding a canonical encoding
followed by arbitrary residual bytes yields the value and the residue. -/
theorem decodeCompactInteger_encode (n : Nat) (h : n < 2 ^ 536)
    (rest : List Nat) :
    decodeCompactInteger (encBytes (encodeCompactInteger n) ++ rest)
      = .ok (n, rest) := by
  by_cases h0 : n ≤ 63
  · rw [encBytes_compact_tier0 n h0]
    rw [decodeCompactInteger]
    simp only [List.cons_append, List.nil_append, takeByte]
    rw [if_pos (by omega : n * 4 % 4 = 0),
      show n * 4 / 4 = n from by omega]
  by_cases h1 : n ≤ 16383
  · rw [encBytes_compact_tier1 n (by omega) h1]
    have hv : n * 4 + 1 < 65536 := by omega
    show decodeCompactInteger
      ((n * 4 + 1) % 256 :: toLE ((n * 4 + 1) / 256) 1 ++ rest) = _
    rw [decodeCompactInteger]
    simp only [List.cons_append, takeByte]
    rw [if_neg (by omega), if_pos (by omega : (n * 4 + 1) % 256 % 4 = 1)]
    rw [show takeBytes 1 (toLE ((n * 4 + 1) / 256) 1 ++ rest)
        = Except.ok ([(n * 4 + 1) / 256 % 256], rest) from rfl]
    simp only [fromLE, Nat.mul_zero, Nat.add_zero]
    rw [if_neg (by omega)]
    rw [show ((n * 4 + 1) % 256 + 256 * ((n * 4 + 1) / 256 % 256)) / 4 = n
        from by omega]
  by_cases h2 : n ≤ 2 ^ 30 - 1
  · rw [encBytes_compact_tier2 n (by omega) h2]
    have hv : n * 4 + 2 < 2 ^ 32 := by omega
    show decodeCompactInteger
      ((n * 4 + 2) % 256 :: toLE ((n * 4 + 2) / 256) 3 ++ rest) = _
    rw [decodeCompactInteger]
    simp only [List.cons_append, takeByte]
    rw [if_neg (by omega), if_neg (by omega),
      if_pos (by omega : (n * 4 + 2) % 256 % 4 = 2)]
    rw [show takeBytes 3 (toLE ((n * 4 + 2) / 256) 3 ++ rest)
        = Except.ok ([(n * 4 + 2) / 256 % 256,
            (n * 4 + 2) / 256 / 256 % 256,
            (n * 4 + 2) / 256 / 256 / 256 % 256], rest) from rfl]
    simp only [fromLE, Nat.mul_zero, Nat.add_zero]
    rw [if_neg (by omega)]
    rw [show ((n * 4 + 2) % 256 + 256 * ((n * 4 + 2) / 256 % 256
          + 256 * ((n * 4 + 2) / 256 / 256 % 256
            + 256 * ((n * 4 + 2) / 256 / 256 / 256 % 256)))) / 4 = n
        from by omega]
  -- tier 3
  have h3 : 2 ^ 30 ≤ n := by omega
  obtain ⟨hN4, hN67⟩ := byteLen_tier3_bounds n h3 (by omega)
  rw [encBytes_compact_tier3 n h3 (by omega)]
  have hhdr : ((byteLen n - 4) * 4 + 3) % 4 = 3 := by omega
  rw [decodeCompactInteger]
  simp only [List.cons_append, takeByte]
  rw [if_neg (by omega), if_neg (by omega), if_neg (by omega)]
  have hNval : ((byteLen n - 4) * 4 + 3) / 4 + 4 = byteLen n := by omega
  rw [hNval]
  rw [takeBytes_exact (byteLen n) (toLE n (byteLen n)) rest
    (toLE_length n (byteLen n))]
  simp only [fromLE_toLE n (byteLen n) (lt_pow_byteLen n)]
  rw [if_neg (by omega)]

example : encBytes (encodeSmallBitVector (2 ^ 58 + 1)) = [4, 1] := rfl
example : decodeSmallBitVector [4, 1] = .ok (1, []) := rfl
example : sbvEq 1 (2 ^ 58 + 1) = false := rfl
example : decodeBitVector [0x14, 0xE5] = .error .UnusedBitsAreSet := rfl
example : decodeSmallBitVector [0x14, 0xE5] = .ok (0xE5, []) := rfl
example : appendOrNewVec [4, 1, 2] [3] = .ok [8, 1, 2, 3] := rfl
example : encBytes (encodeOpaqueVec [[1, 2], [3]]) = [8, 1, 2, 3] := rfl
example : appendOrNewVec [252] [] = .ok [1, 1] := rfl
example : encBytes (encodeOpaqueVec (List.replicate 64 [])) = [1, 1] := rfl
example : decodeOptionalBool [3] = .error .UnexpectedValue := rfl
example : decodeResizeableCollection 2 (fun _ => true) takeByte [12]
    = .error .TooManyItems := rfl

/-! ### Further supporting lemmas -/

theorem decodeCompactTo_encode (digits n : Nat) (h : n < 2 ^ 536)
    (hd : n < 2 ^ digits) (rest : List Nat) :
    decodeCompactTo digits (encBytes (encodeCompactInteger n) ++ rest)
      = .ok (n, rest) := by
  simp only [decodeCompactTo, decodeCompactInteger_encode n h rest]
  rw [if_neg (not_le.mpr hd)]

theorem decodeCompactSizeT_encode (n : Nat) (h64 : n < 2 ^ 64)
    (rest : List Nat) :
    decodeCompactSizeT (encBytes (encodeCompactInteger n) ++ rest)
      = .ok (n, rest) := by
  rw [decodeCompactSizeT]
  exact decodeCompactTo_encode 64 n
    (lt_of_lt_of_le h64 (Nat.pow_le_pow_right (by omega) (by omega))) h64 rest

theorem decodeCompactU32_encode (n : Nat) (h32 : n < 2 ^ 32)
    (rest : List Nat) :
    decodeCompactU32 (encBytes (encodeCompactInteger n) ++ rest)
      = .ok (n, rest) := by
  rw [decodeCompactU32]
  exact decodeCompactTo_encode 32 n
    (lt_of_lt_of_le h32 (Nat.pow_le_pow_right (by omega) (by omega))) h32 rest

theorem byteLen_mono (m n : Nat) (h : m ≤ n) : byteLen m ≤ byteLen n :=
  (byteLen_le_iff m (byteLen n)).mpr (lt_of_le_of_lt h (lt_pow_byteLen n))

theorem lengthOfEncodedCompactInteger_mono (m n : Nat) (h : m ≤ n) :
    lengthOfEncodedCompactInteger m ≤ lengthOfEncodedCompactInteger n := by
  have hb := byteLen_mono m n h
  have hb4 : ¬ n ≤ 2 ^ 30 - 1 → 4 ≤ byteLen n := by
    intro hn
    by_contra hlt
    push_neg at hlt
    have h3 : byteLen n ≤ 3 := by omega
    have := (byteLen_le_iff n 3).mp h3
    norm_num at this
    omega
  rw [lengthOfEncodedCompactInteger, lengthOfEncodedCompactInteger]
  split_ifs <;> omega

theorem minCompactTier_lt_one (m : Nat) (h : minCompactTier m < 1) :
    m ≤ 63 := by
  by_contra hm
  rw [minCompactTier, if_neg hm] at h
  split_ifs at h <;> omega

theorem minCompactTier_lt_two (m : Nat) (h : minCompactTier m < 2) :
    m ≤ 16383 := by
  by_contra hm
  have h63 : ¬ m ≤ 63 := by omega
  rw [minCompactTier, if_neg h63, if_neg hm] at h
  split_ifs at h <;> omega

theorem tryDecodeAsOneOfVariant_get {α : Type} :
    ∀ (alts : List (List Nat → Except DecodeError (α × List Nat))) (i : Nat)
      (bs : List Nat) (h : i < alts.length),
      tryDecodeAsOneOfVariant alts i bs = (alts.get ⟨i, h⟩) bs
  | [], i, _, h => absurd h (by simp)
  | _ :: _, 0, _, _ => rfl
  | _ :: ds, i + 1, bs, h =>
    tryDecodeAsOneOfVariant_get ds i bs (by simpa using h)

theorem toBytesRun_opaque_join (blobs : List (List Nat)) :
    toBytesRun ((blobs.map encodeOpaqueValue).flatten) = blobs.flatten := by
  induction blobs with
  | nil => rfl
  | cons blob rest ih =>
    simp only [List.map_cons, List.flatten_cons, toBytesRun_append,
      encodeOpaqueValue, toBytesRun_map_put, ih]

theorem encBytes_opaqueVec (blobs : List (List Nat))
    (h : blobs.length < 2 ^ 536) :
    encBytes (encodeOpaqueVec blobs)
      = encBytes (encodeCompactInteger blobs.length) ++ blobs.flatten := by
  have hne := encodeCompactInteger_no_error blobs.length h
  rcases hc : encodeCompactInteger blobs.length with ⟨ops, err⟩
  rw [hc] at hne
  simp only at hne
  subst hne
  rw [encodeOpaqueVec, hc]
  simp only [encBytes, toBytesRun_append, toBytesRun_opaque_join]

/-! ## Claims -/

/-- C1: the claim says `decode(encode(v)) == v` for every valid value of
every supported type, in particular for `SmallBitVector` of every bit
length up to its capacity.  The code violates this: `decode(SmallBitVector&,
Decoder&)` rebuilds the word from the data bytes alone —
`v = SmallBitVector(bits)` never restores the size field.  Witnessed at the
vector with one set bit (`bits_ = 2^58 + 1`, i.e. `size() = 1`,
`data() = 1`): it encodes to `[0x04, 0x01]`, which decodes to the word `1`,
whose `size()` is `0` — not equal (by `operator==`) to the original. -/
theorem C1_smallBitVector_roundtrip_fails :
    encBytes (encodeSmallBitVector (2 ^ 58 + 1)) = [0x04, 0x01]
    ∧ decodeSmallBitVector [0x04, 0x01] = .ok (1, [])
    ∧ sbvSize (2 ^ 58 + 1) = 1 ∧ sbvData (2 ^ 58 + 1) = 1
    ∧ sbvSize 1 = 0
    ∧ sbvEq 1 (2 ^ 58 + 1) = false :=
  ⟨rfl, rfl, rfl, rfl, rfl, rfl⟩

/-- C2: the compact encodings of the listed magnitudes are exactly the
listed byte strings; `1073741823` occupies 4 bytes and `1073741824` is the
5-byte tier-3 encoding `[0x03, 0x00, 0x00, 0x00, 0x40]`. -/
theorem C2_compact_encoding_values :
    encBytes (encodeCompactInteger 0) = [0x00]
    ∧ encBytes (encodeCompactInteger 1) = [0x04]
    ∧ encBytes (encodeCompactInteger 63) = [0xFC]
    ∧ encBytes (encodeCompactInteger 64) = [0x01, 0x01]
    ∧ encBytes (encodeCompactInteger 16383) = [0xFD, 0xFF]
    ∧ encBytes (encodeCompactInteger 16384) = [0x02, 0x00, 0x01, 0x00]
    ∧ encBytes (encodeCompactInteger 1073741823) = [0xFE, 0xFF, 0xFF, 0xFF]
    ∧ (encBytes (encodeCompactInteger 1073741823)).length = 4
    ∧ encBytes (encodeCompactInteger 1073741824)
        = [0x03, 0x00, 0x00, 0x00, 0x40] :=
  ⟨rfl, rfl, rfl, rfl, rfl, rfl, rfl, rfl, rfl⟩

/-- C3: decoding a compact encoding that uses a higher tier than the
minimal one for its magnitude (first conjunct, tiers 0–2), or a tier-3
encoding whose magnitude fits a smaller tier or fewer magnitude bytes
(second conjunct), fails with `RedundantCompactEncoding`. -/
theorem C3_redundant_compact_rejected (m : Nat) (rest : List Nat) :
    (∀ t bs, compactTierBytes t m = some bs → minCompactTier m < t →
      decodeCompactInteger (bs ++ rest) = .error .RedundantCompactEncoding)
    ∧ (∀ N bs, compactTier3Bytes N m = some bs →
      m < 2 ^ 30 ∨ byteLen m < N →
      decodeCompactInteger (bs ++ rest) = .error .RedundantCompactEncoding)
    := by
  constructor
  · intro t bs hbs hmin
    match t with
    | 0 => exact absurd hmin (Nat.not_lt_zero _)
    | 1 =>
      have hm : m ≤ 16383 := by
        by_contra hm
        rw [compactTierBytes, if_neg hm] at hbs
        exact absurd hbs (by simp)
      rw [compactTierBytes, if_pos hm] at hbs
      injection hbs with hbs
      subst hbs
      have hm63 : m ≤ 63 := minCompactTier_lt_one m hmin
      show decodeCompactInteger
        ((m * 4 + 1) % 256 :: toLE ((m * 4 + 1) / 256) 1 ++ rest) = _
      rw [decodeCompactInteger]
      simp only [List.cons_append, takeByte]
      rw [if_neg (by omega), if_pos (by omega : (m * 4 + 1) % 256 % 4 = 1)]
      rw [show takeBytes 1 (toLE ((m * 4 + 1) / 256) 1 ++ rest)
          = Except.ok ([(m * 4 + 1) / 256 % 256], rest) from rfl]
      simp only [fromLE, Nat.mul_zero, Nat.add_zero]
      rw [if_pos (by omega)]
    | 2 =>
      have hm : m ≤ 2 ^ 30 - 1 := by
        by_contra hm
        rw [compactTierBytes, if_neg hm] at hbs
        exact absurd hbs (by simp)
      rw [compactTierBytes, if_pos hm] at hbs
      injection hbs with hbs
      subst hbs
      have hm14 : m ≤ 16383 := minCompactTier_lt_two m hmin
      show decodeCompactInteger
        ((m * 4 + 2) % 256 :: toLE ((m * 4 + 2) / 256) 3 ++ rest) = _
      rw [decodeCompactInteger]
      simp only [List.cons_append, takeByte]
      rw [if_neg (by omega), if_neg (by omega),
        if_pos (by omega : (m * 4 + 2) % 256 % 4 = 2)]
      rw [show takeBytes 3 (toLE ((m * 4 + 2) / 256) 3 ++ rest)
          = Except.ok ([(m * 4 + 2) / 256 % 256,
              (m * 4 + 2) / 256 / 256 % 256,
              (m * 4 + 2) / 256 / 256 / 256 % 256], rest) from rfl]
      simp only [fromLE, Nat.mul_zero, Nat.add_zero]
      rw [if_pos (by omega)]
    | t + 3 => simp [compactTierBytes] at hbs
  · intro N bs hbs hred
    rw [compactTier3Bytes] at hbs
    by_cases hc : 4 ≤ N ∧ N ≤ 67 ∧ m < 256 ^ N
    · rw [if_pos hc] at hbs
      obtain ⟨hN4, hN67, hm⟩ := hc
      injection hbs with hbs
      subst hbs
      rw [decodeCompactInteger]
      simp only [List.cons_append, takeByte]
      rw [if_neg (by omega), if_neg (by omega), if_neg (by omega)]
      rw [show ((N - 4) * 4 + 3) / 4 + 4 = N from by omega]
      rw [takeBytes_exact N (toLE m N) rest (toLE_length m N)]
      simp only [fromLE_toLE m N hm]
      rw [if_pos hred]
    · rw [if_neg hc] at hbs
      exact absurd hbs (by simp)

/-- Witness for C3: the 2-byte tier-1 encoding of 32 (minimal tier 0) and
the 6-byte tier-3 encoding of `2^30` with `N = 5` (4 bytes suffice) are
both rejected as redundant. -/
theorem C3_witness :
    decodeCompactInteger [0x81, 0x00] = .error .RedundantCompactEncoding
    ∧ decodeCompactInteger [0x07, 0x00, 0x00, 0x00, 0x40, 0x00]
        = .error .RedundantCompactEncoding :=
  ⟨(C3_redundant_compact_rejected 32 []).1 1 [0x81, 0x00]
      (by decide) (by decide),
   (C3_redundant_compact_rejected (2 ^ 30) []).2 5
      [0x07, 0x00, 0x00, 0x00, 0x40, 0x00] (by decide)
      (Or.inr (by decide))⟩

/-- C4: compact-encoding a negative value raises `NegativeInteger` before
any byte is written — after the failed encode the output buffer holds 0
bytes. -/
theorem C4_negative_compact_rejected (z : Int) (hneg : z < 0) :
    encodeCompactIntegerSigned z = ([], some .NegativeInteger)
    ∧ (encBytes (encodeCompactIntegerSigned z)).length = 0 := by
  rw [encodeCompactIntegerSigned, if_pos hneg]
  exact ⟨rfl, rfl⟩

/-- Witness for C4 at `z = -1`. -/
theorem C4_witness :
    encodeCompactIntegerSigned (-1) = ([], some .NegativeInteger)
    ∧ (encBytes (encodeCompactIntegerSigned (-1))).length = 0 :=
  C4_negative_compact_rejected (-1) (by decide)

/-- C6: decoding a variant with `N` declared alternatives from a
discriminant byte `i`: `i ≥ N` fails with `WrongTypeIndex`; `i < N`
decodes the payload with the `i`-th alternative's decoder and selects that
alternative. -/
theorem C6_variant_discriminant {α : Type}
    (alts : List (List Nat → Except DecodeError (α × List Nat)))
    (i : Nat) (rest : List Nat) :
    (i ≥ alts.length →
      decodeVariant alts (i :: rest) = .error .WrongTypeIndex)
    ∧ (∀ h : i < alts.length,
      decodeVariant alts (i :: rest)
        = match (alts.get ⟨i, h⟩) rest with
          | .error e => .error e
          | .ok (v, r') => .ok ((i, v), r')) := by
  constructor
  · intro hge
    rw [decodeVariant]
    simp only [takeByte]
    rw [if_pos hge]
  · intro hlt
    rw [decodeVariant]
    simp only [takeByte]
    rw [if_neg (by omega), tryDecodeAsOneOfVariant_get alts i rest hlt]

/-- Witness for C6 with a concrete 2-alternative variant (payload decoders:
read one byte; return the constant 7): discriminant 2 fails with
`WrongTypeIndex`, discriminants 0 and 1 select the respective
alternative. -/
theorem C6_witness :
    decodeVariant [takeByte, fun bs => .ok (7, bs)] [2, 9]
        = .error .WrongTypeIndex
    ∧ decodeVariant [takeByte, fun bs => .ok (7, bs)] [0, 9]
        = .ok ((0, 9), [])
    ∧ decodeVariant [takeByte, fun bs => .ok (7, bs)] [1, 9]
        = .ok ((1, 7), [9]) :=
  ⟨(C6_variant_discriminant [takeByte, fun bs => .ok (7, bs)] 2 [9]).1
      (by simp),
   ((C6_variant_discriminant [takeByte, fun bs => .ok (7, bs)] 0 [9]).2
      (by simp)).trans rfl,
   ((C6_variant_discriminant [takeByte, fun bs => .ok (7, bs)] 1 [9]).2
      (by simp)).trans rfl⟩

/-- C7: when the decoded element count of a dynamic collection exceeds the
target's `max_size()`, or the `resize`/`reserve` for that count fails to
allocate, decoding fails with `TooManyItems` — for both the resizeable and
the extensible-back collection decoders. -/
theorem C7_collection_too_many_items {α : Type} (maxSize : Nat)
    (allocOk : Nat → Bool)
    (dec : List Nat → Except DecodeError (α × List Nat)) (bs : List Nat)
    (count : Nat) (r : List Nat)
    (hdec : decodeCompactSizeT bs = .ok (count, r))
    (hfail : count > maxSize ∨ allocOk count = false) :
    decodeResizeableCollection maxSize allocOk dec bs
        = .error .TooManyItems
    ∧ decodeExtensibleBackCollection maxSize allocOk dec bs
        = .error .TooManyItems := by
  constructor
  · rw [decodeResizeableCollection]
    simp only [hdec]
    rcases hfail with hgt | halloc
    · rw [if_pos hgt]
    · by_cases hgt : count > maxSize
      · rw [if_pos hgt]
      · rw [if_neg hgt, if_pos halloc]
  · rw [decodeExtensibleBackCollection]
    simp only [hdec]
    rcases hfail with hgt | halloc
    · rw [if_pos hgt]
    · by_cases hgt : count > maxSize
      · rw [if_pos hgt]
      · rw [if_neg hgt, if_pos halloc]

/-- Witness for C7: a count prefix of 3 (bytes `[0x0C]`) against a target
whose `max_size()` is 2. -/
theorem C7_witness :
    decodeResizeableCollection 2 (fun _ => true) takeByte [0x0C]
        = .error .TooManyItems
    ∧ decodeExtensibleBackCollection 2 (fun _ => true) takeByte [0x0C]
        = .error .TooManyItems :=
  C7_collection_too_many_items 2 (fun _ => true) takeByte [0x0C] 3 []
    rfl (Or.inl (by omega))

/-- C9: an optional boolean is one byte with exactly three valid states
(0 absent, 1 true, 2 false); decoding any other first byte fails with
`UnexpectedValue`. -/
theorem C9_optional_bool (b : Nat) (r : List Nat)
    (h0 : b ≠ 0) (h1 : b ≠ 1) (h2 : b ≠ 2) :
    encBytes (encodeOptionalBool none) = [0x00]
    ∧ encBytes (encodeOptionalBool (some true)) = [0x01]
    ∧ encBytes (encodeOptionalBool (some false)) = [0x02]
    ∧ (∀ v, (encBytes (encodeOptionalBool v)).length = 1)
    ∧ decodeOptionalBool (0 :: r) = .ok (none, r)
    ∧ decodeOptionalBool (1 :: r) = .ok (some true, r)
    ∧ decodeOptionalBool (2 :: r) = .ok (some false, r)
    ∧ decodeOptionalBool (b :: r) = .error .UnexpectedValue := by
  refine ⟨rfl, rfl, rfl, fun v => rfl, rfl, rfl, rfl, ?_⟩
  rw [decodeOptionalBool]
  simp only [takeByte]
  rw [if_neg h0, if_neg h1, if_neg h2]

/-- Witness for C9 at the invalid byte 3. -/
theorem C9_witness :
    decodeOptionalBool [3] = .error .UnexpectedValue :=
  (C9_optional_bool 3 [] (by omega) (by omega) (by omega)).2.2.2.2.2.2.2

/-- C10: for every encode run (the operation trace any encodable value's
encode emits), the size reported through the counting backend
(`encoded_size`) equals the byte count the accumulating backend
(`encode».size()`) produces — also in the error case, where both fail with
the same error. -/
theorem C10_encoded_size_eq_encode_length (r : EncResult) :
    memEncodedSize r = Except.map List.length (memEncode r) := by
  rcases r with ⟨ops, err⟩
  cases err with
  | none =>
    simp only [memEncodedSize, memEncode, Except.map,
      forCountRun_eq_length]
  | some e => rfl

theorem drop_length_append (n : Nat) (xs ys : List Nat)
    (h : xs.length = n) : (xs ++ ys).drop n = ys := by
  subst h
  exact List.drop_left xs ys

/-- The compact encoding always occupies at least one byte. -/
theorem lengthOfEncodedCompactInteger_pos (n : Nat) :
    1 ≤ lengthOfEncodedCompactInteger n := by
  rw [lengthOfEncodedCompactInteger]
  split_ifs <;> omega

/-- C8: decoding a General Bit-Vector whose bit length is not a multiple of
8 fails with `UnusedBitsAreSet` when any unused high bit of the final data
byte is set (`data[byte_size-1] & (0xFF << last_bits) ≠ 0`), while
`SmallBitVector` decoding performs no such check and accepts the same byte
string (stated for lengths within its 58-bit capacity). -/
theorem C8_bitvector_unused_bits (len : Nat) (data rest : List Nat)
    (h64 : len < 2 ^ 64) (hmod : len % 8 ≠ 0)
    (hlen : data.length = (len + 7) / 8)
    (hset : data.getLastD 0 &&& (255 <<< (len % 8)) ≠ 0) :
    decodeBitVector (encBytes (encodeCompactInteger len) ++ (data ++ rest))
        = .error .UnusedBitsAreSet
    ∧ (len ≤ 58 →
      decodeSmallBitVector
          (encBytes (encodeCompactInteger len) ++ (data ++ rest))
        = .ok (fromLE data % 2 ^ 64, rest)) := by
  have hsz := decodeCompactSizeT_encode len h64 (data ++ rest)
  constructor
  · rw [decodeBitVector]
    simp only [hsz]
    simp only [takeBytes_exact ((len + 7) / 8) data rest hlen]
    rw [if_pos ⟨by omega, by omega, hset⟩]
  · intro _hcap
    rw [decodeSmallBitVector]
    simp only [hsz]
    simp only [takeBytes_exact ((len + 7) / 8) data rest hlen]

/-- Witness for C8: bit length 5 with the data byte `0xE5` (bits 5–7 set):
the General Bit-Vector rejects it, the Small Bit-Vector accepts it. -/
theorem C8_witness :
    decodeBitVector (encBytes (encodeCompactInteger 5) ++ ([0xE5] ++ []))
        = .error .UnusedBitsAreSet
    ∧ decodeSmallBitVector (encBytes (encodeCompactInteger 5) ++ ([0xE5] ++ []))
        = .ok (fromLE [0xE5] % 2 ^ 64, []) :=
  ⟨(C8_bitvector_unused_bits 5 [0xE5] [] (by norm_num) (by decide) rfl
      (by decide)).1,
   (C8_bitvector_unused_bits 5 [0xE5] [] (by norm_num) (by decide) rfl
      (by decide)).2 (by omega)⟩

/-- C5: on a well-formed compact-length-prefixed encoded vector of opaque
blobs, `append_or_new_vec` produces exactly the bytes of re-encoding the
vector with the new blob pushed at the back (first conjunct, for any count,
including the counts where the length prefix widens); on an empty buffer it
produces the encoding of the fresh one-element vector (second conjunct).
Repeated appends are instances of the first conjunct, since its output is
again the well-formed encoding of the grown vector. -/
theorem C5_append_or_new_vec (blobs : List (List Nat)) (input : List Nat)
    (h : blobs.length + 1 < 2 ^ 32) :
    appendOrNewVec (encBytes (encodeOpaqueVec blobs)) input
        = .ok (encBytes (encodeOpaqueVec (blobs ++ [input])))
    ∧ appendOrNewVec [] input = .ok (encBytes (encodeOpaqueVec [input])) := by
  refine ⟨?_, rfl⟩
  have hn32 : blobs.length < 2 ^ 32 := by omega
  have hpow : (2 : Nat) ^ 32 ≤ 2 ^ 536 :=
    Nat.pow_le_pow_right (by omega) (by omega)
  have h536 : blobs.length < 2 ^ 536 := by omega
  have hlen1 : (blobs ++ [input]).length = blobs.length + 1 := by simp
  rw [encBytes_opaqueVec blobs h536,
    encBytes_opaqueVec (blobs ++ [input]) (by omega), hlen1]
  have hjoin : (blobs ++ [input]).flatten = blobs.flatten ++ input := by simp
  rw [hjoin]
  have hlen_n : (encBytes (encodeCompactInteger blobs.length)).length
      = lengthOfEncodedCompactInteger blobs.length :=
    encBytes_compact_length blobs.length h536
  have hemp : ¬ ((encBytes (encodeCompactInteger blobs.length)
      ++ blobs.flatten).isEmpty = true) := by
    rw [List.isEmpty_iff]
    intro hcontra
    have hlc := congrArg List.length hcontra
    simp only [List.length_append, hlen_n, List.length_nil] at hlc
    have := lengthOfEncodedCompactInteger_pos blobs.length
    omega
  rw [appendOrNewVec, if_neg hemp]
  simp only [decodeCompactU32_encode blobs.length hn32 blobs.flatten]
  simp only [Nat.mod_eq_of_lt h]
  by_cases heq : lengthOfEncodedCompactInteger blobs.length
      = lengthOfEncodedCompactInteger (blobs.length + 1)
  · rw [if_neg (not_not_intro heq), ← heq, ← hlen_n, List.drop_left,
      List.append_assoc]
  · rw [if_pos heq]
    have hmono : lengthOfEncodedCompactInteger blobs.length
        ≤ lengthOfEncodedCompactInteger (blobs.length + 1) :=
      lengthOfEncodedCompactInteger_mono _ _ (by omega)
    rw [show List.replicate (lengthOfEncodedCompactInteger (blobs.length + 1)
          - lengthOfEncodedCompactInteger blobs.length) 0
        ++ (encBytes (encodeCompactInteger blobs.length) ++ blobs.flatten)
        = (List.replicate (lengthOfEncodedCompactInteger (blobs.length + 1)
            - lengthOfEncodedCompactInteger blobs.length) 0
          ++ encBytes (encodeCompactInteger blobs.length)) ++ blobs.flatten
        from (List.append_assoc _ _ _).symm]
    have hlen_shift : (List.replicate
          (lengthOfEncodedCompactInteger (blobs.length + 1)
            - lengthOfEncodedCompactInteger blobs.length) 0
        ++ encBytes (encodeCompactInteger blobs.length)).length
        = lengthOfEncodedCompactInteger (blobs.length + 1) := by
      rw [List.length_append, List.length_replicate, hlen_n]
      omega
    rw [drop_length_append _ _ _ hlen_shift, List.append_assoc]

/-- Witness for C5: appending `[3]` to the encoded vector of the single
blob `[1, 2]` (bytes `[0x04, 1, 2]`) gives the bytes of the re-encoded
two-element vector `[0x08, 1, 2, 3]`. -/
theorem C5_witness :
    appendOrNewVec (encBytes (encodeOpaqueVec [[1, 2]])) [3]
        = .ok (encBytes (encodeOpaqueVec ([[1, 2]] ++ [[3]])))
    ∧ appendOrNewVec [] [3] = .ok (encBytes (encodeOpaqueVec [[3]])) :=
  C5_append_or_new_vec [[1, 2]] [3] (by norm_num)

end Scale
